import Mathlib

/-
Verification of the client-side resilient data layer
(frontend/src/services/apiClient.ts, frontend/src/services/cacheService.ts,
frontend/src/hooks/useApi.ts, frontend/src/hooks/useImagePreloader.ts).

Each TypeScript function is shallowly embedded as an executable Lean
definition.  Machine time (Date.now()) is modelled as an explicit natural
number passed to each operation; asynchronous interleavings are modelled as
explicit event traces over the relevant component state.
-/

set_option maxRecDepth 4096

/-! ## String helpers

JavaScript String.prototype.includes, used by the retry loop of
requestWithRetry via lastError.message.includes("Client error"). -/

/-- Model of checking that the second character list begins the first one. -/
def charsStartWith : List Char → List Char → Bool
  | _, [] => true
  | [], _ :: _ => false
  | c :: cs, d :: ds => c = d && charsStartWith cs ds

/-- Model of JavaScript String.prototype.includes on character lists:
true when the pattern occurs contiguously somewhere in the text. -/
def charsInclude : List Char → List Char → Bool
  | [], pat => charsStartWith [] pat
  | t :: ts, pat => charsStartWith (t :: ts) pat || charsInclude ts pat

/-- Model of JavaScript s.includes(pat). -/
def strIncludes (s pat : String) : Bool :=
  charsInclude s.toList pat.toList

/-! ## Request client (apiClient.ts)

requestWithRetry / requestWithTimeout, lines 49-147 of
frontend/src/services/apiClient.ts. -/

/-- A JavaScript Error value as observed by the retry loop: its name and
its message. -/
structure JsError where
  name : String
  message : String
deriving DecidableEq, Repr

/-- The per-call request configuration after destructuring away
timeout/retries/retryDelay: we track the headers (the only field the
client itself manipulates) plus an opaque tag so that interceptors can be
arbitrary functions. -/
structure RequestConfig where
  headers : List (String × String)
  tag : Nat
deriving DecidableEq, Repr

/-- A mock HTTP response delivered by the network environment.  jsonBody
models the outcome of response.json() on the error path: none means the
body fails to parse (the catch substitutes a synthesized detail), some d
means it parsed to an object whose optional detail field is d.  value is
the decoded payload used on the success path. -/
structure MockResponse (T : Type) where
  status : Nat
  statusText : String
  jsonBody : Option (Option String)
  value : T
deriving DecidableEq, Repr

/-- Outcome of one dispatched fetch: either a settled response, or a
rejection carrying a thrown value (isErrorInstance records whether the
thrown value is an instanceof Error, which the catch block tests). -/
inductive FetchOutcome (T : Type) where
  | resp (r : MockResponse T)
  | exn (isErrorInstance : Bool) (e : JsError)
deriving DecidableEq, Repr

/-- Response.ok per the fetch specification: status in the range 200-299. -/
def respOk {T : Type} (r : MockResponse T) : Bool :=
  200 ≤ r.status && r.status < 300

/-- The synthesized detail used when response.json() fails:
`HTTP <status>: <statusText>` (apiClient.ts line 108). -/
def fallbackDetail {T : Type} (r : MockResponse T) : String :=
  "HTTP " ++ toString r.status ++ ": " ++ r.statusText

/-- The message of the Error thrown for a non-ok response
(apiClient.ts lines 106-116): errorData.detail when truthy, otherwise
"Client error occurred" for 4xx and "Server error occurred" for the rest.
A JavaScript empty string is falsy, hence the explicit emptiness test. -/
def httpErrorMessage {T : Type} (r : MockResponse T) : String :=
  let d : Option String :=
    match r.jsonBody with
    | none => some (fallbackDetail r)
    | some od => od
  let fb : String :=
    if 400 ≤ r.status && r.status < 500 then "Client error occurred"
    else "Server error occurred"
  match d with
  | some s => if s = "" then fb else s
  | none => fb

/-- Settlement of one attempt: either a decoded success value or a raised
JavaScript Error. -/
inductive AttemptResult (T : Type) where
  | ok (v : T)
  | error (e : JsError)
deriving DecidableEq, Repr

/-- One loop body of requestWithRetry up to its catch: dispatch outcome to
either a decoded success or the Error the catch block receives
(after the `error instanceof Error` normalization on line 128). -/
def attemptOnce {T : Type} (o : FetchOutcome T) : AttemptResult T :=
  match o with
  | .exn isE e => .error (if isE then e else ⟨"Error", "Unknown error"⟩)
  | .resp r =>
      if respOk r then .ok r.value
      else .error ⟨"Error", httpErrorMessage r⟩

/-- The test on line 131 deciding that an error is raised without retry:
an abort (timeout) or a message containing "Client error". -/
def retryGuard (e : JsError) : Bool :=
  e.name = "AbortError" || strIncludes e.message "Client error"

/-- Result of a whole requestWithRetry call: how many attempts ran, the
backoff sleeps performed between them, the configuration passed to each
dispatch, and the final outcome. -/
structure RetryRun (T : Type) where
  attempts : Nat
  delays : List Nat
  configs : List RequestConfig
  result : AttemptResult T
deriving DecidableEq, Repr

/-- The retry loop of requestWithRetry (apiClient.ts lines 97-144).
attempt is the current loop index; fuel is the number of retries still
allowed (retries - attempt), so the loop raises when fuel is exhausted.
handler models the network: the outcome of the fetch performed at a given
attempt index with a given configuration (response interceptors folded
in). -/
def retryGo {T : Type} (handler : Nat → RequestConfig → FetchOutcome T)
    (finalConfig : RequestConfig) (retryDelay : Nat) :
    Nat → Nat → RetryRun T
  | attempt, fuel =>
    match attemptOnce (handler attempt finalConfig) with
    | .ok v => ⟨1, [], [finalConfig], .ok v⟩
    | .error e =>
      if retryGuard e then ⟨1, [], [finalConfig], .error e⟩
      else
        match fuel with
        | 0 => ⟨1, [], [finalConfig], .error e⟩
        | fuel' + 1 =>
          let rest := retryGo handler finalConfig retryDelay (attempt + 1) fuel'
          ⟨rest.attempts + 1, retryDelay * 2 ^ attempt :: rest.delays,
           finalConfig :: rest.configs, rest.result⟩

/-- Default header merge of apiClient.ts lines 90-93: the object spread
puts Content-Type first and lets the existing headers override it. -/
def withDefaultHeaders (c : RequestConfig) : RequestConfig :=
  { c with headers := ("Content-Type", "application/json") :: c.headers }

/-- The merged configuration used for every attempt: request interceptors
applied in registration order (lines 84-87), then default headers. -/
def mkFinalConfig (interceptors : List (RequestConfig → RequestConfig))
    (cfg : RequestConfig) : RequestConfig :=
  withDefaultHeaders (interceptors.foldl (fun c f => f c) cfg)

/-- requestWithRetry (apiClient.ts lines 71-147): interceptors and default
headers are applied once, before the loop; the loop then runs with
attempt indices 0..retries. -/
def requestWithRetryM {T : Type}
    (interceptors : List (RequestConfig → RequestConfig))
    (cfg : RequestConfig) (retries retryDelay : Nat)
    (handler : Nat → RequestConfig → FetchOutcome T) : RetryRun T :=
  retryGo handler (mkFinalConfig interceptors cfg) retryDelay 0 retries

/-- The rejection produced when the timeout timer aborts the in-flight
fetch: per the fetch and AbortController specifications the promise
rejects with a DOMException named AbortError, which is an instanceof
Error. -/
def abortError : JsError :=
  ⟨"AbortError", "The operation was aborted."⟩

/-- requestWithTimeout (apiClient.ts lines 49-69): if the cancellation
timer fires before the network call settles the outcome is the AbortError
rejection; otherwise the underlying settlement is passed through. -/
def requestWithTimeoutM {T : Type} (timerFires : Bool)
    (settled : FetchOutcome T) : FetchOutcome T :=
  if timerFires then .exn true abortError else settled

/-! ## Generic fetch hook (useApi.ts lines 21-56)

The hook state and the transitions performed by fetchData.  Concurrent
fetches are modelled as an event trace: a start event begins an attempt
(the synchronous prefix of fetchData up to the await) and a resolve event
delivers a settlement for a given attempt index (the code after the
await).  The code applies the settlement state unconditionally, with no
generation counter. -/

/-- The UseApiState record of useApi.ts lines 9-13. -/
structure UseApiState (T : Type) where
  data : Option T
  loading : Bool
  error : Option String
deriving DecidableEq, Repr

/-- Settlement of the awaited apiCall: a resolved value or a rejection
message. -/
inductive ApiOutcome (T : Type) where
  | ok (v : T)
  | err (msg : String)
deriving DecidableEq, Repr

/-- Hook state plus the bookkeeping of in-flight fetchData invocations:
pending holds the indices of started, not yet settled attempts and next
numbers the attempts in start order. -/
structure ApiRun (T : Type) where
  st : UseApiState T
  pending : List Nat
  next : Nat
deriving DecidableEq, Repr

/-- Initial hook state (useApi.ts lines 25-29). -/
def apiInit {T : Type} : ApiRun T :=
  ⟨⟨none, true, none⟩, [], 0⟩

/-- An interleaving event: start a fetchData invocation, or settle the
attempt with the given index. -/
inductive ApiEvent (T : Type) where
  | start
  | resolve (i : Nat) (o : ApiOutcome T)
deriving DecidableEq, Repr

/-- One event transition of the useApi state machine.  start performs
setState(prev greater-to {...prev, loading: true, error: null}) (line 32);
resolve applies the settlement branch of fetchData (lines 36 and 39)
unconditionally - the code has no check that the attempt is still the
newest one. -/
def apiStep {T : Type} (r : ApiRun T) : ApiEvent T → ApiRun T
  | .start =>
      ⟨{ r.st with loading := true, error := none },
       r.pending ++ [r.next], r.next + 1⟩
  | .resolve i o =>
      if i ∈ r.pending then
        match o with
        | .ok v => ⟨⟨some v, false, none⟩, r.pending.erase i, r.next⟩
        | .err m => ⟨⟨none, false, some m⟩, r.pending.erase i, r.next⟩
      else r

/-- Run the useApi state machine over an event trace. -/
def apiRunTrace {T : Type} (r : ApiRun T) (es : List (ApiEvent T)) : ApiRun T :=
  es.foldl apiStep r

/-! ## Cache service (cacheService.ts)

The volatile (memory) backend: a JavaScript Map from keys to CacheItem
records, embedded as an association list in insertion order (Map.set on an
existing key keeps its position; on a fresh key it appends).  Date.now()
is an explicit parameter. -/

/-- CacheItem of cacheService.ts lines 5-10. -/
structure CacheItem (T : Type) where
  data : T
  timestamp : Nat
  ttl : Nat
  key : String
deriving DecidableEq, Repr

/-- The memory backend together with the configured ceiling: maxSize is
the private class field (fixed at 100 by the constructor; the maxSize
destructured from per-call options on line 114 is never used). -/
structure CacheState (T : Type) where
  entries : List (String × CacheItem T)
  maxSize : Nat
deriving DecidableEq, Repr

/-- JavaScript Map.get: the item stored under the key, if any. -/
def mapGet {T : Type} (es : List (String × CacheItem T)) (k : String) :
    Option (CacheItem T) :=
  match es with
  | [] => none
  | (k', it) :: rest => if k' = k then some it else mapGet rest k

/-- JavaScript Map.set: replace in place when the key exists, append
otherwise. -/
def mapSet {T : Type} (es : List (String × CacheItem T)) (k : String)
    (it : CacheItem T) : List (String × CacheItem T) :=
  match es with
  | [] => [(k, it)]
  | (k', it') :: rest =>
      if k' = k then (k', it) :: rest else (k', it') :: mapSet rest k it

/-- JavaScript Map.delete: remove the entry with the key, if present. -/
def mapDelete {T : Type} (es : List (String × CacheItem T)) (k : String) :
    List (String × CacheItem T) :=
  match es with
  | [] => []
  | (k', it') :: rest =>
      if k' = k then rest else (k', it') :: mapDelete rest k

/-- isExpired (cacheService.ts lines 35-37): Date.now() - item.timestamp
greater than item.ttl.  With truncated Nat subtraction a timestamp at or
after now yields 0, matching the JavaScript comparison where a negative
difference is never greater than a nonnegative ttl. -/
def isExpired {T : Type} (now : Nat) (it : CacheItem T) : Bool :=
  it.ttl < now - it.timestamp

/-- The scan of evictOldest (lines 42-50): fold the entries in iteration
order carrying the oldest key and timestamp seen so far, seeded with the
empty key and Date.now(); the comparison is strict. -/
def findOldest {T : Type} (now : Nat)
    (es : List (String × CacheItem T)) : String × Nat :=
  es.foldl
    (fun acc e => if e.2.timestamp < acc.2 then (e.1, e.2.timestamp) else acc)
    ("", now)

/-- evictOldest (cacheService.ts lines 39-55): no-op while the size is
within the ceiling; otherwise delete the scanned key, guarded by its
JavaScript truthiness (the empty string is falsy and deletes nothing). -/
def evictOldest {T : Type} (now : Nat) (s : CacheState T) : CacheState T :=
  if s.entries.length ≤ s.maxSize then s
  else
    let ok := (findOldest now s.entries).1
    if ok ≠ "" then { s with entries := mapDelete s.entries ok } else s

/-- set for the memory backend (cacheService.ts lines 110-127): store the
item stamped with Date.now(), then run eviction. -/
def cacheSet {T : Type} (now : Nat) (k : String) (d : T) (ttl : Nat)
    (s : CacheState T) : CacheState T :=
  evictOldest now { s with entries := mapSet s.entries k ⟨d, now, ttl, k⟩ }

/-- get for the memory backend (cacheService.ts lines 152-191): null when
absent; on an expired hit the entry is deleted from the backend and null
is returned; otherwise the stored data.  Returns the value together with
the backend state after the call. -/
def cacheGet {T : Type} (now : Nat) (k : String) (s : CacheState T) :
    Option T × CacheState T :=
  match mapGet s.entries k with
  | none => (none, s)
  | some it =>
      if isExpired now it then (none, { s with entries := mapDelete s.entries k })
      else (some it.data, s)

/-- size for the memory backend (cacheService.ts line 260). -/
def cacheSize {T : Type} (s : CacheState T) : Nat :=
  s.entries.length

/-- Well-formedness of a Map: pairwise distinct keys.  Every state
reachable through mapSet / mapDelete from the empty Map satisfies this. -/
def CacheWF {T : Type} (s : CacheState T) : Prop :=
  (s.entries.map (fun e => e.1)).Nodup

/-! ## Paginated accumulator (useApi.ts lines 101-182) -/

/-- The state of usePaginatedData: allData, currentPage, hasNextPage,
loading, error, total (lines 105-110). -/
structure PagState (T : Type) where
  allData : List T
  currentPage : Nat
  hasNextPage : Bool
  loading : Bool
  error : Option String
  total : Nat
deriving DecidableEq, Repr

/-- Initial accumulator state (lines 105-110). -/
def pagInit {T : Type} : PagState T :=
  ⟨[], 1, false, false, none, 0⟩

/-- The pagination envelope returned by the injected fetch function. -/
structure PageResponse (T : Type) where
  data : List T
  total : Nat
  has_next : Bool
deriving DecidableEq, Repr

/-- The duplicate-avoiding merge of useApi.ts lines 120-125 (and 145-150):
collect the ids already present, keep only incoming items whose id is not
among them, and append them after the existing items. -/
def mergeDedup {T : Type} (idOf : T → Nat) (prev incoming : List T) : List T :=
  let newIds := prev.map idOf
  prev ++ incoming.filter (fun x => !newIds.contains (idOf x))

/-- The synchronous prefix of loadPage (lines 113-114): raise loading,
clear the error. -/
def loadPageStart {T : Type} (s : PagState T) : PagState T :=
  { s with loading := true, error := none }

/-- The success continuation of loadPage (lines 117-132 plus the finally):
replace or merge the items according to append, then record page metadata
and drop loading. -/
def loadPageSuccess {T : Type} (idOf : T → Nat) (page : Nat) (append : Bool)
    (resp : PageResponse T) (s : PagState T) : PagState T :=
  { s with
    allData := if append then mergeDedup idOf s.allData resp.data else resp.data,
    currentPage := page,
    hasNextPage := resp.has_next,
    total := resp.total,
    loading := false }

/-- The failure continuation of loadPage (lines 133-138): record the
message, keep the accumulated items, drop loading. -/
def loadPageFailure {T : Type} (msg : String) (s : PagState T) : PagState T :=
  { s with error := some msg, loading := false }

/-- Accumulator state plus bookkeeping for in-flight loadMore fetches:
pendingLM pairs an invocation index with the page it captured, issuedLM
logs every page number for which loadMore started a fetch. -/
structure PagRun (T : Type) where
  st : PagState T
  pendingLM : List (Nat × Nat)
  issuedLM : List Nat
  next : Nat
deriving DecidableEq, Repr

/-- The synchronous body of loadMore (useApi.ts lines 141-159): guarded by
hasNextPage and not loading, it starts a fetch of currentPage + 1.  It
does not modify any hook state - in particular it never sets loading. -/
def loadMoreCall {T : Type} (r : PagRun T) : PagRun T :=
  if r.st.hasNextPage && !r.st.loading then
    let nextPage := r.st.currentPage + 1
    { r with
      pendingLM := r.pendingLM ++ [(r.next, nextPage)],
      issuedLM := r.issuedLM ++ [nextPage],
      next := r.next + 1 }
  else r

/-- The then-continuation of a loadMore fetch (lines 145-153): merge the
page with deduplication and record the captured page metadata. -/
def loadMoreResolve {T : Type} (idOf : T → Nat) (i : Nat)
    (resp : PageResponse T) (r : PagRun T) : PagRun T :=
  match r.pendingLM.find? (fun p => p.1 = i) with
  | none => r
  | some (_, page) =>
      { r with
        st := { r.st with
                allData := mergeDedup idOf r.st.allData resp.data,
                currentPage := page,
                hasNextPage := resp.has_next,
                total := resp.total },
        pendingLM := r.pendingLM.filter (fun p => p.1 ≠ i) }

/-! ## Bounded image preloader (useImagePreloader.ts)

preloadedImages is React state holding one record per tracked key;
loadingQueue and activeLoads are refs mutated in place.  processQueue is
an async loop: it shifts one key at a time, skips keys already active,
otherwise marks the key active, issues the underlying image load and
awaits its settlement before continuing, finally removing the key from
the active set.  Each startPreloading call runs its own invocation of
this loop, so an invocation suspended on a load resumes when that load
settles.  The model below represents a suspended invocation by its
awaited key (which is exactly its entry in activeLoads) and replays the
loop on every resumption. -/

/-- Status of one tracked key, the loaded/error pair of PreloadedImage. -/
inductive PreStatus where
  | pending
  | loaded
  | failed
deriving DecidableEq, Repr

/-- The shared state of the hook: the tracked map (preloadedImages), the
FIFO queue and active set (refs), the aggregate isLoading flag, the
configured maxConcurrent, and a log of every underlying image load ever
issued, in order. -/
structure PreRun where
  images : List (String × PreStatus)
  queue : List String
  active : List String
  isLoading : Bool
  maxC : Nat
  log : List String
deriving DecidableEq, Repr

/-- Hook state at mount for a given maxConcurrent. -/
def preInit (maxC : Nat) : PreRun :=
  ⟨[], [], [], false, maxC, []⟩

/-- JavaScript Map.has on the tracked map. -/
def imgsHas (m : List (String × PreStatus)) (k : String) : Bool :=
  match m with
  | [] => false
  | (k', _) :: rest => k' = k || imgsHas rest k

/-- JavaScript Map.set on the tracked map. -/
def imgsSet (m : List (String × PreStatus)) (k : String) (v : PreStatus) :
    List (String × PreStatus) :=
  match m with
  | [] => [(k, v)]
  | (k', v') :: rest =>
      if k' = k then (k', v) :: rest else (k', v') :: imgsSet rest k v

/-- The map initialization of startPreloading lines 78-86: set a pending
record for each new source not already present. -/
def markPending (m : List (String × PreStatus)) (srcs : List String) :
    List (String × PreStatus) :=
  srcs.foldl (fun acc s => if imgsHas acc s then acc else imgsSet acc s .pending) m

/-- The final check of processQueue (lines 65-67): isLoading drops only
when no load is active and the queue is empty. -/
def checkDone (r : PreRun) : PreRun :=
  if r.active.isEmpty && r.queue.isEmpty then { r with isLoading := false } else r

/-- The while loop of processQueue (lines 52-63) run until it either
suspends on an issued load or terminates.  Each iteration re-checks the
queue and the concurrency bound, shifts one key, skips it when already
active, and otherwise marks it active and issues the load; issuing a load
suspends the invocation (the shifted key stays in active until its
settlement resumes the loop).  fuel bounds the iterations; the queue
never grows during one synchronous run, so queue length is enough. -/
def runLoop : Nat → PreRun → PreRun
  | 0, r => checkDone r
  | fuel + 1, r =>
    match r.queue with
    | [] => checkDone r
    | src :: rest =>
      if r.maxC ≤ r.active.length then checkDone r
      else if src ∈ r.active then runLoop fuel { r with queue := rest }
      else { r with queue := rest, active := src :: r.active, log := r.log ++ [src] }

/-- startPreloading (lines 70-89): filter the request against the tracked
map, return unchanged when nothing is new, otherwise raise isLoading,
enqueue the new sources, mark them pending and drain. -/
def scheduleStep (r : PreRun) (srcs : List String) : PreRun :=
  let novel := srcs.filter (fun s => !imgsHas r.images s)
  if novel.isEmpty then r
  else
    let r' := { r with
                isLoading := true,
                queue := r.queue ++ novel,
                images := markPending r.images novel }
    runLoop r'.queue.length r'

/-- Settlement of the load awaited by one suspended invocation: the
image onload/onerror handler records the terminal status (lines 32-40),
the finally clause removes the key from the active set (line 61), and the
loop of that invocation resumes. -/
def settleStep (r : PreRun) (k : String) (success : Bool) : PreRun :=
  if k ∈ r.active then
    let r' := { r with
                images := imgsSet r.images k (if success then .loaded else .failed),
                active := r.active.erase k }
    runLoop r'.queue.length r'
  else r

/-- An interleaving event of the preloader. -/
inductive PreEvent where
  | sched (srcs : List String)
  | settle (k : String) (success : Bool)
deriving DecidableEq, Repr

/-- One event transition. -/
def preStep (r : PreRun) : PreEvent → PreRun
  | .sched srcs => scheduleStep r srcs
  | .settle k success => settleStep r k success

/-- Run the preloader over an event trace. -/
def preRunTrace (r : PreRun) (es : List PreEvent) : PreRun :=
  es.foldl preStep r

/-- One invocation of processQueue in isolation (no interleaved schedule
or foreign settlement), with the settlement of each load it issues
delivered before the loop continues, as the await on line 59 forces; ok
gives each load result.  Returns every state the invocation passes
through, the suspended state after each issue included. -/
def isoRun (ok : String → Bool) : Nat → PreRun → List PreRun
  | 0, r => [checkDone r]
  | fuel + 1, r =>
    match r.queue with
    | [] => [checkDone r]
    | src :: rest =>
      if r.maxC ≤ r.active.length then [checkDone r]
      else if src ∈ r.active then isoRun ok fuel { r with queue := rest }
      else
        let rSusp := { r with
                       queue := rest,
                       active := src :: r.active,
                       log := r.log ++ [src] }
        let rSettled := { rSusp with
                          images := imgsSet rSusp.images src
                            (if ok src then .loaded else .failed),
                          active := rSusp.active.erase src }
        rSusp :: isoRun ok fuel rSettled

/-! ## Concrete scenario material used by the claim theorems -/

/-- An accumulated item carrying just its id, as in the pagination
examples. -/
structure PgItem where
  id : Nat
deriving DecidableEq, Repr

/-- Identifier projection used by the dedup merge on PgItem. -/
def pgId : PgItem → Nat := PgItem.id

/-- The CacheService constructor state (cacheService.ts lines 19-21):
empty memory map, maxSize 100. -/
def cacheInit {T : Type} : CacheState T :=
  ⟨[], 100⟩

/-- Scenario for C1: every attempt yields HTTP 404 with the parseable
error body carrying detail "Not found"; retries = 1, retryDelay = 1000. -/
def c1run : RetryRun Nat :=
  requestWithRetryM [] ⟨[], 0⟩ 1 1000
    (fun _ _ => .resp ⟨404, "Not Found", some (some "Not found"), 0⟩)

/-- Scenario for C2: fetch A starts, fetch B starts, B resolves with 2,
then the superseded A resolves with 1. -/
def c2trace : List (ApiEvent Nat) :=
  [.start, .start, .resolve 1 (.ok 2), .resolve 0 (.ok 1)]

/-- Scenario for the C3 counterexample: every attempt yields HTTP 503
(a server failure) whose parseable body carries the detail
"Client error occurred"; retries = 2. -/
def c3cexRun : RetryRun Nat :=
  requestWithRetryM [] ⟨[], 0⟩ 2 100
    (fun _ _ => .resp ⟨503, "Service Unavailable", some (some "Client error occurred"), 0⟩)

/-- Scenario for C6: 101 successive inserts into the constructor state,
all performed at Date.now() = 5 (one burst within a single
millisecond). -/
def c6state : CacheState Nat :=
  (List.range 101).foldl
    (fun s i => cacheSet 5 ("k" ++ toString i) i 60000 s) cacheInit

/-- Scenario for C8: a first page was loaded successfully with
has_next = true, so hasNextPage is true and loading is false; no loadMore
fetch has been issued yet. -/
def c8run : PagRun PgItem :=
  ⟨loadPageSuccess pgId 1 false ⟨[⟨1⟩], 1, true⟩ (loadPageStart pagInit), [], [], 0⟩

/-- Scenario for the C9 counterexample: one startPreloading call whose
source list contains the same key twice, followed by the settlement of
the first issued load. -/
def c9cexTrace : List PreEvent :=
  [.sched ["k", "k"], .settle "k" true]

/-- Scenario for the C9 witness: the key "a" is scheduled three times
across distinct calls, the second time while its load is in flight and
the third time after it has settled. -/
def c9okTrace : List PreEvent :=
  [.sched ["a", "b"], .sched ["a"], .settle "a" true, .sched ["a"]]

/-- Decidable per-event guard: a schedule event carries a duplicate-free
source list. -/
def schedOk : PreEvent → Bool
  | .sched srcs => decide srcs.Nodup
  | .settle _ _ => true

/-- The preloader bookkeeping invariant: every key is enqueued or fetched
at most once overall, enqueued and fetched keys are tracked in the map,
and a key is active no more often than it was fetched. -/
def PreInv (r : PreRun) : Prop :=
  (∀ k, r.queue.count k + r.log.count k ≤ 1)
  ∧ (∀ k ∈ r.queue, imgsHas r.images k = true)
  ∧ (∀ k ∈ r.log, imgsHas r.images k = true)
  ∧ (∀ k, r.active.count k ≤ r.log.count k)

/-- Scenario for the C10 witness: an isolated drain of the two-element
queue with one concurrency slot. -/
def c10start : PreRun :=
  { preInit 1 with queue := ["a", "b"], isLoading := true }

/-! ## Claim theorems -/

/-- C1: the claim states that a 4xx response is never retried, so that a
handler returning 404 on the first attempt performs exactly 1 attempt
regardless of the configured retries and of the error body.  The code
violates this: with retries = 1 and a 404 whose parseable body carries a
detail, two attempts are performed (the no-retry guard only matches the
substring "Client error", which a structured detail replaces) and the
404-derived failure surfaces only after the backoff sleep. -/
theorem c1_fourxx_with_detail_is_retried :
    c1run.attempts = 2 ∧ c1run.attempts ≠ 1 ∧ c1run.delays = [1000]
      ∧ c1run.result = .error ⟨"Error", "Not found"⟩ := by
  decide

/-- C2: the claim states that when fetch A is superseded by fetch B and A
settles after B, the final hook state reflects B.  The code violates
this: fetchData applies the settlement of every attempt unconditionally,
so on the trace start A, start B, B resolves 2, A resolves 1 the final
data is A's stale value 1, not B's value 2. -/
theorem c2_stale_fetch_overwrites_newer :
    (apiRunTrace apiInit c2trace).st.data = some 1
      ∧ (apiRunTrace apiInit c2trace).st.data ≠ some 2
      ∧ (apiRunTrace apiInit c2trace).st.loading = false := by
  decide

/-- C3 counterexample: the claim as stated quantifies over every handler
that always produces a server failure.  A handler always answering 503
whose parseable body carries the detail "Client error occurred" is such a
handler, yet with retries = 2 the call performs 1 attempt, not 3: the
retry loop classifies the error by its message substring and raises it
immediately. -/
theorem c3_counterexample_masquerading_detail :
    c3cexRun.attempts = 1 ∧ c3cexRun.attempts ≠ 2 + 1 := by
  decide

/-- C6 counterexample: the claim states that the insert making the count
exceed maxSize evicts the oldest entry and leaves the count at maxSize.
After 101 inserts into the constructor state all stamped at the same
Date.now() = 5, the count is 101, one above maxSize = 100: the eviction
scan compares strictly against a running minimum seeded with the current
time, so a backend whose entries all carry the current timestamp yields
the falsy empty key and nothing is deleted. -/
theorem c6_counterexample_tied_timestamps_no_eviction :
    cacheSize c6state = 101 ∧ c6state.maxSize = 100 := by
  decide

/-- C8: the claim states that a second loadMore call made before the
fetch started by a first loadMore call settles is suppressed.  The code
violates this: loadMore is guarded by the loading flag but never sets it,
so from the reachable state hasNextPage = true, loading = false two
consecutive loadMore calls issue two fetches of page 2, both in flight
together. -/
theorem c8_concurrent_loadMore_not_suppressed :
    (loadMoreCall (loadMoreCall c8run)).issuedLM = [2, 2]
      ∧ (loadMoreCall (loadMoreCall c8run)).pendingLM.length = 2
      ∧ c8run.st.hasNextPage = true ∧ c8run.st.loading = false := by
  decide

/-- C9 counterexample: the claim promises that a key scheduled twice
before it settles causes exactly one underlying fetch.  One
startPreloading call whose source list repeats the key "k" schedules it
twice before it settles, yet two loads of "k" are issued: both copies
pass the tracked-map filter (taken before any state update), the queue
holds "k" twice, and the second copy is dequeued after the first load has
settled and left the active set. -/
theorem c9_counterexample_duplicate_srcs_double_fetch :
    (preRunTrace (preInit 3) c9cexTrace).log = ["k", "k"]
      ∧ (preRunTrace (preInit 3) c9cexTrace).log.count "k" = 2 := by
  decide

/-- C4: if the per-call timeout fires before the first network call
settles, the attempt rejects with the AbortError produced by the abort,
the retry loop raises it immediately, and exactly one attempt is
performed with no backoff sleep, for every retries value. -/
theorem c4_timeout_is_terminal {T : Type}
    (interceptors : List (RequestConfig → RequestConfig)) (cfg : RequestConfig)
    (retries retryDelay : Nat) (timerFires : Nat → Bool)
    (net : Nat → RequestConfig → FetchOutcome T)
    (h : timerFires 0 = true) :
    requestWithRetryM interceptors cfg retries retryDelay
        (fun i c => requestWithTimeoutM (timerFires i) (net i c))
      = ⟨1, [], [mkFinalConfig interceptors cfg], .error abortError⟩ := by
  have hg : retryGuard abortError = true := by decide
  simp [requestWithRetryM, retryGo, requestWithTimeoutM, h, attemptOnce, hg]

/-- C4 witness: the timeout fires on the first attempt with retries = 5;
exactly one attempt, no delays, and the abort failure is raised. -/
theorem c4_timeout_is_terminal_witness :
    requestWithRetryM ([] : List (RequestConfig → RequestConfig)) ⟨[], 0⟩ 5 100
        (fun i c => requestWithTimeoutM ((fun _ => true) i)
          ((fun _ _ => FetchOutcome.resp (⟨200, "OK", none, 7⟩ : MockResponse Nat)) i c))
      = ⟨1, [], [mkFinalConfig [] ⟨[], 0⟩], .error abortError⟩ :=
  c4_timeout_is_terminal [] ⟨[], 0⟩ 5 100 (fun _ => true)
    (fun _ _ => .resp ⟨200, "OK", none, 7⟩) rfl

/-! ## Map lemmas for the cache backend -/

/-- Setting a key makes it retrievable with the new item. -/
theorem mapGet_mapSet_self {T : Type} (es : List (String × CacheItem T))
    (k : String) (it : CacheItem T) : mapGet (mapSet es k it) k = some it := by
  induction es with
  | nil => simp [mapSet, mapGet]
  | cons e rest ih =>
      obtain ⟨a, b⟩ := e
      by_cases hk : a = k
      · simp [mapSet, mapGet, hk]
      · simp [mapSet, mapGet, hk, ih]

/-- Setting a key leaves every other key unchanged. -/
theorem mapGet_mapSet_ne {T : Type} (es : List (String × CacheItem T))
    (k x : String) (it : CacheItem T) (h : k ≠ x) :
    mapGet (mapSet es k it) x = mapGet es x := by
  have h' : ¬ k = x := h
  induction es with
  | nil => simp [mapSet, mapGet, h']
  | cons e rest ih =>
      obtain ⟨a, b⟩ := e
      by_cases hk : a = k
      · have hx : ¬ a = x := by rw [hk]; exact h'
        simp [mapSet, mapGet, hk, hx, h']
      · by_cases hx : a = x
        · have hx' : ¬ x = k := fun hh => h' (hh.symm)
          simp [mapSet, mapGet, hk, hx, hx']
        · simp [mapSet, mapGet, hk, hx, ih]

/-- Setting a fresh key appends the pair at the end. -/
theorem mapSet_of_fresh {T : Type} (es : List (String × CacheItem T))
    (k : String) (it : CacheItem T) (h : mapGet es k = none) :
    mapSet es k it = es ++ [(k, it)] := by
  induction es with
  | nil => simp [mapSet]
  | cons e rest ih =>
      obtain ⟨a, b⟩ := e
      by_cases hk : a = k
      · simp [mapGet, hk] at h
      · simp only [mapGet, if_neg hk] at h
        simp [mapSet, hk, ih h]

/-- A key is absent from the map exactly when lookup yields none. -/
theorem mapGet_none_iff {T : Type} (es : List (String × CacheItem T))
    (k : String) : mapGet es k = none ↔ k ∉ es.map (fun e => e.1) := by
  induction es with
  | nil => simp [mapGet]
  | cons e rest ih =>
      obtain ⟨a, b⟩ := e
      by_cases hk : a = k
      · simp [mapGet, hk]
      · have hk' : ¬ k = a := fun hh => hk hh.symm
        simp [mapGet, hk, hk', ih]

/-- A successful lookup exhibits membership. -/
theorem mapGet_mem {T : Type} (es : List (String × CacheItem T))
    (k : String) (it : CacheItem T) (h : mapGet es k = some it) :
    (k, it) ∈ es := by
  induction es with
  | nil => simp [mapGet] at h
  | cons e rest ih =>
      obtain ⟨a, b⟩ := e
      by_cases hk : a = k
      · simp only [mapGet, if_pos hk] at h
        have hb : b = it := Option.some.inj h
        rw [← hk, ← hb]
        exact List.mem_cons_self _ _
      · simp only [mapGet, if_neg hk] at h
        exact List.mem_cons_of_mem _ (ih h)

/-- With pairwise distinct keys, membership determines the lookup. -/
theorem wf_mapGet_of_mem {T : Type} (es : List (String × CacheItem T))
    (k : String) (it : CacheItem T)
    (hwf : (es.map (fun e => e.1)).Nodup) (h : (k, it) ∈ es) :
    mapGet es k = some it := by
  induction es with
  | nil => simp at h
  | cons e rest ih =>
      obtain ⟨a, b⟩ := e
      simp only [List.map_cons, List.nodup_cons] at hwf
      rcases List.mem_cons.1 h with h1 | h1
      · have ha : a = k := (congrArg Prod.fst h1).symm
        have hb : b = it := (congrArg Prod.snd h1).symm
        simp [mapGet, ha, hb]
      · have hk : ¬ a = k := by
          intro hk
          exact hwf.1 (hk ▸ (List.mem_map.2 ⟨(k, it), h1, rfl⟩))
        simp [mapGet, hk, ih hwf.2 h1]

/-- Deleting a key leaves every other key unchanged. -/
theorem mapGet_mapDelete_ne {T : Type} (es : List (String × CacheItem T))
    (k x : String) (h : x ≠ k) :
    mapGet (mapDelete es k) x = mapGet es x := by
  induction es with
  | nil => simp [mapDelete]
  | cons e rest ih =>
      obtain ⟨a, b⟩ := e
      have hkx : ¬ k = x := fun hh => h (hh.symm)
      by_cases hk : a = k
      · have hx : ¬ a = x := by rw [hk]; exact hkx
        simp [mapDelete, mapGet, hk, hx, hkx]
      · by_cases hx : a = x
        · have hx' : ¬ x = k := fun hh => h hh
          simp [mapDelete, mapGet, hk, hx, hx']
        · simp [mapDelete, mapGet, hk, hx, ih]

/-- Deletion produces a sublist. -/
theorem mapDelete_sublist {T : Type} (es : List (String × CacheItem T))
    (k : String) : (mapDelete es k).Sublist es := by
  induction es with
  | nil => simp [mapDelete]
  | cons e rest ih =>
      by_cases hk : e.1 = k
      · simp only [mapDelete, if_pos hk]
        exact (List.Sublist.refl rest).cons e
      · simp only [mapDelete, if_neg hk]
        exact ih.cons₂ e

/-- With pairwise distinct keys, a deleted key is gone. -/
theorem mapGet_mapDelete_self {T : Type} (es : List (String × CacheItem T))
    (k : String) (hwf : (es.map (fun e => e.1)).Nodup) :
    mapGet (mapDelete es k) k = none := by
  induction es with
  | nil => simp [mapDelete, mapGet]
  | cons e rest ih =>
      obtain ⟨a, b⟩ := e
      simp only [List.map_cons, List.nodup_cons] at hwf
      by_cases hk : a = k
      · simp only [mapDelete, if_pos hk]
        exact (mapGet_none_iff rest k).2 (fun hm => hwf.1 (hk ▸ hm))
      · simp [mapDelete, mapGet, hk, ih hwf.2]

/-- Deleting a present key shrinks the map by one. -/
theorem mapDelete_length {T : Type} (es : List (String × CacheItem T))
    (k : String) (it : CacheItem T) (h : mapGet es k = some it) :
    (mapDelete es k).length + 1 = es.length := by
  induction es with
  | nil => simp [mapGet] at h
  | cons e rest ih =>
      obtain ⟨a, b⟩ := e
      by_cases hk : a = k
      · simp [mapDelete, hk]
      · simp only [mapGet, if_neg hk] at h
        simp [mapDelete, hk, ih h]

/-- Keys after a set come from the old keys or are the set key. -/
theorem keys_mapSet_sub {T : Type} (es : List (String × CacheItem T))
    (k x : String) (it : CacheItem T)
    (h : x ∈ (mapSet es k it).map (fun e => e.1)) :
    x = k ∨ x ∈ es.map (fun e => e.1) := by
  induction es with
  | nil =>
      simp only [mapSet, List.map_cons, List.map_nil, List.mem_singleton] at h
      exact Or.inl h
  | cons e rest ih =>
      obtain ⟨a, b⟩ := e
      simp only [List.map_cons, List.mem_cons]
      by_cases hk : a = k
      · simp only [mapSet, if_pos hk, List.map_cons, List.mem_cons] at h
        rcases h with h | h
        · exact Or.inr (Or.inl h)
        · exact Or.inr (Or.inr h)
      · simp only [mapSet, if_neg hk, List.map_cons, List.mem_cons] at h
        rcases h with h | h
        · exact Or.inr (Or.inl h)
        · rcases ih h with h1 | h1
          · exact Or.inl h1
          · exact Or.inr (Or.inr h1)

/-- Setting preserves distinctness of keys. -/
theorem nodup_keys_mapSet {T : Type} (es : List (String × CacheItem T))
    (k : String) (it : CacheItem T)
    (hwf : (es.map (fun e => e.1)).Nodup) :
    ((mapSet es k it).map (fun e => e.1)).Nodup := by
  induction es with
  | nil => simp [mapSet]
  | cons e rest ih =>
      obtain ⟨a, b⟩ := e
      simp only [List.map_cons, List.nodup_cons] at hwf
      by_cases hk : a = k
      · simp only [mapSet, if_pos hk, List.map_cons, List.nodup_cons]
        exact ⟨hwf.1, hwf.2⟩
      · simp only [mapSet, if_neg hk, List.map_cons, List.nodup_cons]
        refine ⟨fun hm => ?_, ih hwf.2⟩
        rcases keys_mapSet_sub rest k a it hm with h1 | h1
        · exact hk h1
        · exact hwf.1 h1

/-- Deleting preserves distinctness of keys. -/
theorem nodup_keys_mapDelete {T : Type} (es : List (String × CacheItem T))
    (k : String) (hwf : (es.map (fun e => e.1)).Nodup) :
    ((mapDelete es k).map (fun e => e.1)).Nodup :=
  hwf.sublist ((mapDelete_sublist es k).map _)

/-- The eviction scan either keeps its seed or returns the key and
timestamp of some entry whose timestamp is strictly below the seed. -/
theorem findOldest_spec {T : Type} (now : Nat)
    (es : List (String × CacheItem T)) :
    findOldest now es = ("", now)
    ∨ ∃ p ∈ es, findOldest now es = (p.1, p.2.timestamp) ∧ p.2.timestamp < now := by
  have main : ∀ (l : List (String × CacheItem T)) (acc : String × Nat),
      l.foldl (fun a e => if e.2.timestamp < a.2 then (e.1, e.2.timestamp) else a) acc = acc
      ∨ ∃ p ∈ l,
          l.foldl (fun a e => if e.2.timestamp < a.2 then (e.1, e.2.timestamp) else a) acc
            = (p.1, p.2.timestamp) ∧ p.2.timestamp < acc.2 := by
    intro l
    induction l with
    | nil => intro acc; exact Or.inl rfl
    | cons e rest ih =>
        intro acc
        by_cases he : e.2.timestamp < acc.2
        · simp only [List.foldl_cons, if_pos he]
          rcases ih (e.1, e.2.timestamp) with h | ⟨p, hp, hres, hlt⟩
          · exact Or.inr ⟨e, List.mem_cons_self e rest, h, he⟩
          · exact Or.inr ⟨p, List.mem_cons_of_mem e hp, hres, lt_trans hlt he⟩
        · simp only [List.foldl_cons, if_neg he]
          rcases ih acc with h | ⟨p, hp, hres, hlt⟩
          · exact Or.inl h
          · exact Or.inr ⟨p, List.mem_cons_of_mem e hp, hres, hlt⟩
  exact main es ("", now)

/-- After a set on a well-formed backend the key holds the new item:
eviction can only remove an entry whose timestamp is strictly below the
current time, which the freshly stamped entry never is.  The result stays
well-formed. -/
theorem cacheSet_mapGet_self {T : Type} (s : CacheState T) (k : String)
    (d : T) (ttl t0 : Nat) (hwf : CacheWF s) :
    mapGet (cacheSet t0 k d ttl s).entries k = some ⟨d, t0, ttl, k⟩
    ∧ CacheWF (cacheSet t0 k d ttl s) := by
  have hset : mapGet (mapSet s.entries k ⟨d, t0, ttl, k⟩) k = some ⟨d, t0, ttl, k⟩ :=
    mapGet_mapSet_self s.entries k _
  have hwf2 : ((mapSet s.entries k ⟨d, t0, ttl, k⟩).map (fun e => e.1)).Nodup :=
    nodup_keys_mapSet s.entries k _ hwf
  unfold cacheSet evictOldest
  by_cases hlen : (mapSet s.entries k ⟨d, t0, ttl, k⟩).length ≤ s.maxSize
  · simp only [hlen]
    exact ⟨hset, hwf2⟩
  · simp only [hlen]
    by_cases hok : (findOldest t0 (mapSet s.entries k ⟨d, t0, ttl, k⟩)).1 ≠ ""
    · simp only [if_pos hok, if_neg hlen]
      rcases findOldest_spec t0 (mapSet s.entries k ⟨d, t0, ttl, k⟩) with h | ⟨p, hp, hres, hlt⟩
      · rw [h] at hok; simp at hok
      · have hpk : p.1 ≠ k := by
          intro hpk
          have hgp : mapGet (mapSet s.entries k ⟨d, t0, ttl, k⟩) p.1 = some p.2 := by
            have hp' : (p.1, p.2) ∈ mapSet s.entries k ⟨d, t0, ttl, k⟩ := by
              simpa using hp
            exact wf_mapGet_of_mem _ p.1 p.2 hwf2 hp'
          rw [hpk, hset] at hgp
          have hts : p.2.timestamp = t0 := by
            rw [← Option.some.inj hgp]
          omega
        constructor
        · rw [hres]
          exact (mapGet_mapDelete_ne (mapSet s.entries k ⟨d, t0, ttl, k⟩) p.1 k
            (fun he => hpk he.symm)).trans hset
        · rw [hres]
          exact nodup_keys_mapDelete _ _ hwf2
    · simp only [if_neg hok, if_neg hlen]
      exact ⟨hset, hwf2⟩

/-- C5: an entry written with time-to-live ttl at time t0 is returned by
get while now - t0 is at most ttl; strictly after, get returns null,
deletes the entry from the backend as a side effect, and the backend
count drops by one. -/
theorem c5_cache_ttl {T : Type} (s : CacheState T) (k : String) (d : T)
    (ttl t0 t : Nat) (hwf : CacheWF s) :
    (t - t0 ≤ ttl →
      cacheGet t k (cacheSet t0 k d ttl s) = (some d, cacheSet t0 k d ttl s))
    ∧ (ttl < t - t0 →
      (cacheGet t k (cacheSet t0 k d ttl s)).1 = none
      ∧ mapGet (cacheGet t k (cacheSet t0 k d ttl s)).2.entries k = none
      ∧ cacheSize (cacheGet t k (cacheSet t0 k d ttl s)).2 + 1
          = cacheSize (cacheSet t0 k d ttl s)) := by
  obtain ⟨hget, hwf2⟩ := cacheSet_mapGet_self s k d ttl t0 hwf
  constructor
  · intro h
    have hexp : isExpired t (⟨d, t0, ttl, k⟩ : CacheItem T) = false := by
      simp only [isExpired, decide_eq_false_iff_not, not_lt]
      omega
    simp [cacheGet, hget, hexp]
  · intro h
    have hexp : isExpired t (⟨d, t0, ttl, k⟩ : CacheItem T) = true := by
      simp only [isExpired, decide_eq_true_eq]
      omega
    refine ⟨?_, ?_, ?_⟩
    · simp [cacheGet, hget, hexp]
    · simp only [cacheGet, hget, hexp, if_true]
      exact mapGet_mapDelete_self _ k hwf2
    · simp only [cacheGet, hget, hexp, if_true, cacheSize]
      exact mapDelete_length _ k _ hget

/-- C5 witness: set "a" to 1 with ttl 100 at time 0 in the constructor
state; at t = 50 the value is returned with the backend untouched, at
t = 150 the read returns null, deletes the entry and shrinks the count. -/
theorem c5_cache_ttl_witness :
    cacheGet 50 "a" (cacheSet 0 "a" (1 : Nat) 100 cacheInit)
      = (some 1, cacheSet 0 "a" (1 : Nat) 100 cacheInit)
    ∧ (cacheGet 150 "a" (cacheSet 0 "a" (1 : Nat) 100 cacheInit)).1 = none
    ∧ cacheSize (cacheGet 150 "a" (cacheSet 0 "a" (1 : Nat) 100 cacheInit)).2 + 1
        = cacheSize (cacheSet 0 "a" (1 : Nat) 100 cacheInit) :=
  ⟨(c5_cache_ttl cacheInit "a" 1 100 0 50 (by simp [CacheWF, cacheInit])).1 (by decide),
   ((c5_cache_ttl cacheInit "a" 1 100 0 150 (by simp [CacheWF, cacheInit])).2 (by decide)).1,
   ((c5_cache_ttl cacheInit "a" 1 100 0 150 (by simp [CacheWF, cacheInit])).2 (by decide)).2.2⟩

/-- If a strictly unique oldest entry sits strictly below the seed, the
eviction fold lands on exactly that entry. -/
theorem foldOldest_min {T : Type} (k₀ : String) (ts₀ : Nat) :
    ∀ (es : List (String × CacheItem T)) (acc : String × Nat),
      ((∃ it₀ : CacheItem T, (k₀, it₀) ∈ es ∧ it₀.timestamp = ts₀) ∧ ts₀ < acc.2
        ∨ acc = (k₀, ts₀)) →
      (∀ p ∈ es, p.1 = k₀ → p.2.timestamp = ts₀) →
      (∀ p ∈ es, p.1 ≠ k₀ → ts₀ < p.2.timestamp) →
      es.foldl (fun a e => if e.2.timestamp < a.2 then (e.1, e.2.timestamp) else a) acc
        = (k₀, ts₀) := by
  intro es
  induction es with
  | nil =>
      intro acc hstate _ _
      rcases hstate with ⟨⟨it₀, hmem, _⟩, _⟩ | hacc
      · simp at hmem
      · simpa using hacc
  | cons e rest ih =>
      intro acc hstate hall hne
      by_cases hek : e.1 = k₀
      · have hts : e.2.timestamp = ts₀ := hall e (List.mem_cons_self e rest) hek
        rcases hstate with ⟨⟨it₀, _, _⟩, hacc⟩ | hacc
        · have hbr : e.2.timestamp < acc.2 := by omega
          simp only [List.foldl_cons, if_pos hbr]
          exact ih (e.1, e.2.timestamp)
            (Or.inr (by rw [hek, hts]))
            (fun p hp hpk => hall p (List.mem_cons_of_mem e hp) hpk)
            (fun p hp hpk => hne p (List.mem_cons_of_mem e hp) hpk)
        · have hbr : ¬ e.2.timestamp < acc.2 := by rw [hacc, hts]; omega
          simp only [List.foldl_cons, if_neg hbr]
          exact ih acc (Or.inr hacc)
            (fun p hp hpk => hall p (List.mem_cons_of_mem e hp) hpk)
            (fun p hp hpk => hne p (List.mem_cons_of_mem e hp) hpk)
      · have hlt : ts₀ < e.2.timestamp := hne e (List.mem_cons_self e rest) hek
        rcases hstate with ⟨⟨it₀, hmem, hts⟩, hacc⟩ | hacc
        · have hmem' : (k₀, it₀) ∈ rest := by
            rcases List.mem_cons.1 hmem with h1 | h1
            · exact absurd (congrArg Prod.fst h1).symm hek
            · exact h1
          by_cases hbr : e.2.timestamp < acc.2
          · simp only [List.foldl_cons, if_pos hbr]
            exact ih (e.1, e.2.timestamp)
              (Or.inl ⟨⟨it₀, hmem', hts⟩, hlt⟩)
              (fun p hp hpk => hall p (List.mem_cons_of_mem e hp) hpk)
              (fun p hp hpk => hne p (List.mem_cons_of_mem e hp) hpk)
          · simp only [List.foldl_cons, if_neg hbr]
            exact ih acc (Or.inl ⟨⟨it₀, hmem', hts⟩, hacc⟩)
              (fun p hp hpk => hall p (List.mem_cons_of_mem e hp) hpk)
              (fun p hp hpk => hne p (List.mem_cons_of_mem e hp) hpk)
        · have hbr : ¬ e.2.timestamp < acc.2 := by rw [hacc]; omega
          simp only [List.foldl_cons, if_neg hbr]
          exact ih acc (Or.inr hacc)
            (fun p hp hpk => hall p (List.mem_cons_of_mem e hp) hpk)
            (fun p hp hpk => hne p (List.mem_cons_of_mem e hp) hpk)

/-- C6 amended: when an insert at time t0 with a fresh key makes the
volatile backend exceed its ceiling, and the backend holds an entry with
a non-empty key whose createdAt is strictly below t0 and strictly below
every other entry's createdAt, then exactly that entry is evicted: it is
no longer retrievable, the count returns to maxSize, and the new entry
and every other old entry remain retrievable.  (The provisos are forced
by the strict scan seeded with the current time and by the falsy-key
guard: with all timestamps tied at the insert time nothing is evicted,
as the counterexample shows.) -/
theorem c6_eviction_amended {T : Type} (s : CacheState T) (k : String)
    (d : T) (ttl t0 : Nat) (k₀ : String) (it₀ : CacheItem T)
    (hwf : CacheWF s)
    (hfull : s.entries.length = s.maxSize)
    (hfresh : mapGet s.entries k = none)
    (hmem : (k₀, it₀) ∈ s.entries)
    (hk₀ : k₀ ≠ "")
    (hold : it₀.timestamp < t0)
    (hmin : ∀ p ∈ s.entries, p.1 ≠ k₀ → it₀.timestamp < p.2.timestamp) :
    mapGet (cacheSet t0 k d ttl s).entries k₀ = none
    ∧ cacheSize (cacheSet t0 k d ttl s) = s.maxSize
    ∧ mapGet (cacheSet t0 k d ttl s).entries k = some ⟨d, t0, ttl, k⟩
    ∧ ∀ p ∈ s.entries, p.1 ≠ k₀ →
        mapGet (cacheSet t0 k d ttl s).entries p.1 = some p.2 := by
  have happend : mapSet s.entries k ⟨d, t0, ttl, k⟩ = s.entries ++ [(k, ⟨d, t0, ttl, k⟩)] :=
    mapSet_of_fresh s.entries k _ hfresh
  have hwf2 : ((mapSet s.entries k ⟨d, t0, ttl, k⟩).map (fun e => e.1)).Nodup :=
    nodup_keys_mapSet s.entries k _ hwf
  have hkfresh : k ∉ s.entries.map (fun e => e.1) := (mapGet_none_iff s.entries k).1 hfresh
  have hk₀k : k₀ ≠ k := by
    intro hh
    exact hkfresh (hh ▸ List.mem_map.2 ⟨(k₀, it₀), hmem, rfl⟩)
  have hmem2 : (k₀, it₀) ∈ mapSet s.entries k ⟨d, t0, ttl, k⟩ := by
    rw [happend]; exact List.mem_append_left _ hmem
  have hget₀ : mapGet (mapSet s.entries k ⟨d, t0, ttl, k⟩) k₀ = some it₀ :=
    wf_mapGet_of_mem _ k₀ it₀ hwf2 hmem2
  have hfold : findOldest t0 (mapSet s.entries k ⟨d, t0, ttl, k⟩) = (k₀, it₀.timestamp) := by
    unfold findOldest
    refine foldOldest_min k₀ it₀.timestamp _ ("", t0)
      (Or.inl ⟨⟨it₀, hmem2, rfl⟩, hold⟩) ?_ ?_
    · intro p hp hpk
      have hp' : (p.1, p.2) ∈ mapSet s.entries k ⟨d, t0, ttl, k⟩ := by simpa using hp
      have := wf_mapGet_of_mem _ p.1 p.2 hwf2 hp'
      rw [hpk, hget₀] at this
      rw [Option.some.inj this]
    · intro p hp hpk
      rw [happend] at hp
      rcases List.mem_append.1 hp with h1 | h1
      · exact hmin p h1 hpk
      · have : p = (k, ⟨d, t0, ttl, k⟩) := by simpa using h1
        rw [this]
        exact hold
  have hlen2 : (mapSet s.entries k ⟨d, t0, ttl, k⟩).length = s.maxSize + 1 := by
    rw [happend]
    simp [hfull]
  have hout : (cacheSet t0 k d ttl s).entries
      = mapDelete (mapSet s.entries k ⟨d, t0, ttl, k⟩) k₀ := by
    unfold cacheSet evictOldest
    have hnle : ¬ (mapSet s.entries k ⟨d, t0, ttl, k⟩).length ≤ s.maxSize := by omega
    simp only [hnle, if_false, if_neg hnle, hfold, if_pos hk₀]
  refine ⟨?_, ?_, ?_, ?_⟩
  · rw [hout]
    exact mapGet_mapDelete_self _ k₀ hwf2
  · have := mapDelete_length (mapSet s.entries k ⟨d, t0, ttl, k⟩) k₀ it₀ hget₀
    simp only [cacheSize, hout]
    omega
  · rw [hout, mapGet_mapDelete_ne _ k₀ k (fun hh => hk₀k hh.symm)]
    exact mapGet_mapSet_self s.entries k _
  · intro p hp hpk
    have hpknw : p.1 ≠ k := by
      intro hh
      exact hkfresh (hh ▸ List.mem_map.2 ⟨p, hp, rfl⟩)
    rw [hout, mapGet_mapDelete_ne _ k₀ p.1 hpk,
      mapGet_mapSet_ne s.entries k p.1 _ (fun hh => hpknw hh.symm)]
    exact wf_mapGet_of_mem s.entries p.1 p.2 hwf (by simpa using hp)

/-- C6 witness: a full backend of two entries with distinct timestamps;
inserting a third key at time 9 evicts exactly the strictly oldest entry
"a", leaves the count at maxSize, and keeps "b" and the new "c"
retrievable. -/
theorem c6_eviction_amended_witness :
    mapGet (cacheSet 9 "c" (30 : Nat) 50
        ⟨[("a", ⟨10, 3, 50, "a"⟩), ("b", ⟨20, 7, 50, "b"⟩)], 2⟩).entries "a" = none
    ∧ cacheSize (cacheSet 9 "c" (30 : Nat) 50
        ⟨[("a", ⟨10, 3, 50, "a"⟩), ("b", ⟨20, 7, 50, "b"⟩)], 2⟩) = 2
    ∧ mapGet (cacheSet 9 "c" (30 : Nat) 50
        ⟨[("a", ⟨10, 3, 50, "a"⟩), ("b", ⟨20, 7, 50, "b"⟩)], 2⟩).entries "c"
        = some ⟨30, 9, 50, "c"⟩
    ∧ mapGet (cacheSet 9 "c" (30 : Nat) 50
        ⟨[("a", ⟨10, 3, 50, "a"⟩), ("b", ⟨20, 7, 50, "b"⟩)], 2⟩).entries "b"
        = some ⟨20, 7, 50, "b"⟩ := by
  have h := c6_eviction_amended
    (⟨[("a", ⟨10, 3, 50, "a"⟩), ("b", ⟨20, 7, 50, "b"⟩)], 2⟩ : CacheState Nat)
    "c" 30 50 9 "a" ⟨10, 3, 50, "a"⟩
    (by simp [CacheWF]) (by decide) (by decide) (by decide) (by decide) (by decide)
    (by decide)
  exact ⟨h.1, h.2.1, h.2.2.1, h.2.2.2 ("b", ⟨20, 7, 50, "b"⟩) (by decide) (by decide)⟩

/-- A server failure in the sense of the specification: a response with a
5xx status, or a transport-level rejection. -/
def serverFailure {T : Type} (o : FetchOutcome T) : Bool :=
  match o with
  | .resp r => 500 ≤ r.status
  | .exn _ _ => true

/-- When every attempt up to the fuel bound fails with an error that the
guard does not stop, the retry loop runs all attempts, sleeps the
exponential backoff before each re-attempt, passes the same
configuration each time, and ends with the last error. -/
theorem retryGo_all_fail {T : Type} (handler : Nat → RequestConfig → FetchOutcome T)
    (cfg : RequestConfig) (d : Nat) :
    ∀ (fuel attempt : Nat),
      (∀ j, attempt ≤ j → j ≤ attempt + fuel →
        ∃ e, attemptOnce (handler j cfg) = .error e ∧ retryGuard e = false) →
      (retryGo handler cfg d attempt fuel).attempts = fuel + 1
      ∧ (retryGo handler cfg d attempt fuel).delays
          = (List.range fuel).map (fun a => d * 2 ^ (attempt + a))
      ∧ (retryGo handler cfg d attempt fuel).configs = List.replicate (fuel + 1) cfg
      ∧ ∀ e, attemptOnce (handler (attempt + fuel) cfg) = .error e →
          (retryGo handler cfg d attempt fuel).result = .error e := by
  intro fuel
  induction fuel with
  | zero =>
      intro attempt h
      obtain ⟨e, he, hg⟩ := h attempt (le_refl _) (by omega)
      have hrun : retryGo handler cfg d attempt 0 = ⟨1, [], [cfg], .error e⟩ := by
        rw [retryGo, he]
        simp [hg]
      refine ⟨by rw [hrun], by rw [hrun]; simp, by rw [hrun]; simp, ?_⟩
      intro e' he'
      rw [Nat.add_zero, he] at he'
      have : e = e' := AttemptResult.error.inj he'
      rw [hrun, this]
  | succ fuel' ih =>
      intro attempt h
      obtain ⟨e, he, hg⟩ := h attempt (le_refl _) (by omega)
      have hrun : retryGo handler cfg d attempt (fuel' + 1)
          = ⟨(retryGo handler cfg d (attempt + 1) fuel').attempts + 1,
             d * 2 ^ attempt :: (retryGo handler cfg d (attempt + 1) fuel').delays,
             cfg :: (retryGo handler cfg d (attempt + 1) fuel').configs,
             (retryGo handler cfg d (attempt + 1) fuel').result⟩ := by
        rw [retryGo, he]
        simp [hg]
      obtain ⟨iha, ihd, ihc, ihr⟩ := ih (attempt + 1)
        (fun j hj1 hj2 => h j (by omega) (by omega))
      refine ⟨?_, ?_, ?_, ?_⟩
      · rw [hrun]
        simp [iha]
      · rw [hrun]
        simp only [ihd, List.range_succ_eq_map, List.map_cons, List.map_map]
        refine congrArg₂ _ (by simp) ?_
        apply List.map_congr_left
        intro a _
        have harith : attempt + 1 + a = attempt + Nat.succ a := by omega
        simp [Function.comp, harith]
      · rw [hrun]
        simp only [ihc, ← List.replicate_succ]
      · intro e' he'
        rw [hrun]
        have harith : attempt + (fuel' + 1) = attempt + 1 + fuel' := by omega
        rw [harith] at he'
        exact ihr e' he'

/-- C3 amended: for every handler whose attempts all yield a server
failure (5xx or transport-level) whose derived error message is not an
abort and does not contain the substring "Client error", the call with
retry count r performs exactly r + 1 attempts, sleeps
retryDelay * 2 ^ a before re-attempt a, passes the same merged
configuration - interceptors applied once, before the first attempt - to
every dispatch, and raises the failure observed on the last attempt.
(The message proviso is forced by the counterexample: the loop
classifies errors by message substring.) -/
theorem c3_retry_bound_amended {T : Type}
    (interceptors : List (RequestConfig → RequestConfig)) (cfg : RequestConfig)
    (retries retryDelay : Nat) (handler : Nat → RequestConfig → FetchOutcome T)
    (_hsrv : ∀ j, j ≤ retries →
      serverFailure (handler j (mkFinalConfig interceptors cfg)) = true)
    (hmsg : ∀ j, j ≤ retries →
      ∃ e, attemptOnce (handler j (mkFinalConfig interceptors cfg)) = .error e
        ∧ retryGuard e = false) :
    (requestWithRetryM interceptors cfg retries retryDelay handler).attempts = retries + 1
    ∧ (requestWithRetryM interceptors cfg retries retryDelay handler).delays
        = (List.range retries).map (fun a => retryDelay * 2 ^ a)
    ∧ (requestWithRetryM interceptors cfg retries retryDelay handler).configs
        = List.replicate (retries + 1) (mkFinalConfig interceptors cfg)
    ∧ ∀ e, attemptOnce (handler retries (mkFinalConfig interceptors cfg)) = .error e →
        (requestWithRetryM interceptors cfg retries retryDelay handler).result
          = .error e := by
  obtain ⟨ha, hd, hc, hr⟩ := retryGo_all_fail handler (mkFinalConfig interceptors cfg)
    retryDelay retries 0 (fun j hj1 hj2 => hmsg j (by omega))
  refine ⟨ha, ?_, hc, ?_⟩
  · rw [requestWithRetryM] at *
    rw [hd]
    apply List.map_congr_left
    intro a _
    simp
  · intro e he
    rw [requestWithRetryM] at *
    exact hr e (by simpa using he)

/-- C3 witness: retries = 2 against a handler always answering 503 with
the detail "svc down" performs three attempts with backoff 100 then 200,
the same merged configuration each time, and raises the 503-derived
failure. -/
theorem c3_retry_bound_amended_witness :
    (requestWithRetryM ([] : List (RequestConfig → RequestConfig)) ⟨[], 0⟩ 2 100
        (fun _ _ => .resp (⟨503, "Service Unavailable", some (some "svc down"), 0⟩
          : MockResponse Nat))).attempts = 2 + 1
    ∧ (requestWithRetryM ([] : List (RequestConfig → RequestConfig)) ⟨[], 0⟩ 2 100
        (fun _ _ => .resp (⟨503, "Service Unavailable", some (some "svc down"), 0⟩
          : MockResponse Nat))).delays
        = (List.range 2).map (fun a => 100 * 2 ^ a)
    ∧ (requestWithRetryM ([] : List (RequestConfig → RequestConfig)) ⟨[], 0⟩ 2 100
        (fun _ _ => .resp (⟨503, "Service Unavailable", some (some "svc down"), 0⟩
          : MockResponse Nat))).configs
        = List.replicate (2 + 1) (mkFinalConfig [] ⟨[], 0⟩)
    ∧ (requestWithRetryM ([] : List (RequestConfig → RequestConfig)) ⟨[], 0⟩ 2 100
        (fun _ _ => .resp (⟨503, "Service Unavailable", some (some "svc down"), 0⟩
          : MockResponse Nat))).result = .error ⟨"Error", "svc down"⟩ := by
  have h := c3_retry_bound_amended [] ⟨[], 0⟩ 2 100
    (fun _ _ => .resp (⟨503, "Service Unavailable", some (some "svc down"), 0⟩
      : MockResponse Nat))
    (fun _ _ => rfl)
    (fun _ _ => ⟨⟨"Error", "svc down"⟩, rfl, rfl⟩)
  exact ⟨h.1, h.2.1, h.2.2.1, h.2.2.2 ⟨"Error", "svc down"⟩ (by decide)⟩

/-- C7: loadPage with append = false replaces the accumulated items with
the fetched page; with append = true the existing items stay in place as
a prefix, every incoming id appears in the result, and when neither the
accumulated ids nor the incoming ids repeat, the merged ids are free of
duplicates. -/
theorem c7_paginated_merge {T : Type} (idOf : T → Nat) (s : PagState T)
    (page : Nat) (resp : PageResponse T) :
    (loadPageSuccess idOf page false resp s).allData = resp.data
    ∧ (loadPageSuccess idOf page true resp s).allData.take s.allData.length
        = s.allData
    ∧ (∀ x ∈ resp.data,
        idOf x ∈ (loadPageSuccess idOf page true resp s).allData.map idOf)
    ∧ ((s.allData.map idOf).Nodup → (resp.data.map idOf).Nodup →
        ((loadPageSuccess idOf page true resp s).allData.map idOf).Nodup) := by
  have hdata : (loadPageSuccess idOf page true resp s).allData
      = s.allData
        ++ resp.data.filter (fun x => !(s.allData.map idOf).contains (idOf x)) := rfl
  refine ⟨rfl, ?_, ?_, ?_⟩
  · rw [hdata]
    simp [List.take_left]
  · intro x hx
    rw [hdata]
    simp only [List.map_append, List.mem_append]
    by_cases hc : idOf x ∈ s.allData.map idOf
    · exact Or.inl hc
    · refine Or.inr (List.mem_map.2 ⟨x, List.mem_filter.2 ⟨hx, ?_⟩, rfl⟩)
      simpa using hc
  · intro h1 h2
    rw [hdata]
    simp only [List.map_append]
    refine List.Nodup.append h1
      (h2.sublist ((List.filter_sublist resp.data).map idOf)) ?_
    intro a ha1 ha2
    obtain ⟨x, hxf, hxe⟩ := List.mem_map.1 ha2
    have hpred := (List.mem_filter.1 hxf).2
    rw [hxe] at hpred
    have : a ∉ s.allData.map idOf := by simpa using hpred
    exact this ha1

/-- C7 witness: the accumulator holding ids 1, 2 replaced by page
[2, 3] when append is false, and merged to [1, 2, 3] when append is
true: the prefix is preserved, id 3 arrives, no id repeats. -/
theorem c7_paginated_merge_witness :
    (loadPageSuccess pgId 2 false ⟨[⟨2⟩, ⟨3⟩], 3, false⟩
        (⟨[⟨1⟩, ⟨2⟩], 1, true, false, none, 2⟩ : PagState PgItem)).allData
      = [⟨2⟩, ⟨3⟩]
    ∧ (loadPageSuccess pgId 2 true ⟨[⟨2⟩, ⟨3⟩], 3, false⟩
        (⟨[⟨1⟩, ⟨2⟩], 1, true, false, none, 2⟩ : PagState PgItem)).allData.take 2
      = [⟨1⟩, ⟨2⟩]
    ∧ pgId ⟨3⟩ ∈ (loadPageSuccess pgId 2 true ⟨[⟨2⟩, ⟨3⟩], 3, false⟩
        (⟨[⟨1⟩, ⟨2⟩], 1, true, false, none, 2⟩ : PagState PgItem)).allData.map pgId
    ∧ ((loadPageSuccess pgId 2 true ⟨[⟨2⟩, ⟨3⟩], 3, false⟩
        (⟨[⟨1⟩, ⟨2⟩], 1, true, false, none, 2⟩ : PagState PgItem)).allData.map pgId).Nodup
    ∧ (loadPageSuccess pgId 2 true ⟨[⟨2⟩, ⟨3⟩], 3, false⟩
        (⟨[⟨1⟩, ⟨2⟩], 1, true, false, none, 2⟩ : PagState PgItem)).allData
      = [⟨1⟩, ⟨2⟩, ⟨3⟩] := by
  have h := c7_paginated_merge pgId
    (⟨[⟨1⟩, ⟨2⟩], 1, true, false, none, 2⟩ : PagState PgItem) 2 ⟨[⟨2⟩, ⟨3⟩], 3, false⟩
  exact ⟨h.1, h.2.1, h.2.2.1 ⟨3⟩ (by decide), h.2.2.2 (by decide) (by decide), by decide⟩

/-! ## Preloader invariant lemmas -/

/-- Setting a key in the tracked map keeps every present key present. -/
theorem imgsHas_imgsSet_mono (m : List (String × PreStatus)) (k x : String)
    (v : PreStatus) (h : imgsHas m x = true) :
    imgsHas (imgsSet m k v) x = true := by
  induction m with
  | nil => simp [imgsHas] at h
  | cons e rest ih =>
      obtain ⟨a, b⟩ := e
      simp only [imgsHas, Bool.or_eq_true, decide_eq_true_eq] at h
      by_cases hk : a = k
      · simp only [imgsSet, if_pos hk, imgsHas, Bool.or_eq_true, decide_eq_true_eq]
        rcases h with h | h
        · exact Or.inl h
        · exact Or.inr h
      · simp only [imgsSet, if_neg hk, imgsHas, Bool.or_eq_true, decide_eq_true_eq]
        rcases h with h | h
        · exact Or.inl h
        · exact Or.inr (ih h)

/-- The key just set is present. -/
theorem imgsHas_imgsSet_self (m : List (String × PreStatus)) (k : String)
    (v : PreStatus) : imgsHas (imgsSet m k v) k = true := by
  induction m with
  | nil => simp [imgsSet, imgsHas]
  | cons e rest ih =>
      obtain ⟨a, b⟩ := e
      by_cases hk : a = k
      · simp [imgsSet, imgsHas, hk]
      · simp only [imgsSet, if_neg hk, imgsHas, Bool.or_eq_true, decide_eq_true_eq]
        exact Or.inr ih

/-- Marking pending entries keeps every present key present. -/
theorem markPending_mono (srcs : List String) :
    ∀ (m : List (String × PreStatus)) (x : String), imgsHas m x = true →
      imgsHas (markPending m srcs) x = true := by
  induction srcs with
  | nil => intro m x h; simpa [markPending] using h
  | cons s rest ih =>
      intro m x h
      have hstep : imgsHas (if imgsHas m s then m else imgsSet m s .pending) x = true := by
        by_cases hs : imgsHas m s = true
        · simpa [hs]
        · simp only [Bool.not_eq_true] at hs
          simp only [hs, Bool.false_eq_true, if_false]
          exact imgsHas_imgsSet_mono m s x _ h
      simpa [markPending, List.foldl_cons] using ih _ x hstep

/-- Every scheduled source is tracked after the marking pass. -/
theorem markPending_of_mem (srcs : List String) :
    ∀ (m : List (String × PreStatus)) (x : String), x ∈ srcs →
      imgsHas (markPending m srcs) x = true := by
  induction srcs with
  | nil => intro m x h; simp at h
  | cons s rest ih =>
      intro m x h
      rcases List.mem_cons.1 h with h1 | h1
      · have hstep : imgsHas (if imgsHas m s then m else imgsSet m s .pending) s = true := by
          by_cases hs : imgsHas m s = true
          · simp [hs]
          · simp only [Bool.not_eq_true] at hs
            simp only [hs, Bool.false_eq_true, if_false]
            exact imgsHas_imgsSet_self m s _
        rw [h1]
        simpa [markPending, List.foldl_cons] using
          markPending_mono rest _ s hstep
      · simpa [markPending, List.foldl_cons] using ih _ x h1

/-- The final isLoading check touches no invariant field. -/
theorem checkDone_inv (r : PreRun) (h : PreInv r) : PreInv (checkDone r) := by
  unfold checkDone
  split
  · exact h
  · exact h

/-- The drain loop preserves the preloader invariant. -/
theorem runLoop_inv (fuel : Nat) :
    ∀ (r : PreRun), PreInv r → PreInv (runLoop fuel r) := by
  induction fuel with
  | zero => intro r h; exact checkDone_inv r h
  | succ fuel ih =>
      intro r h
      obtain ⟨im, q, act, il, mc, lg⟩ := r
      cases q with
      | nil => exact checkDone_inv _ h
      | cons src rest =>
          obtain ⟨h1, h2, h3, h4⟩ := h
          dsimp only at h1 h2 h3 h4
          simp only [runLoop]
          by_cases hmc : mc ≤ act.length
          · simp only [if_pos hmc]
            exact checkDone_inv _ ⟨h1, h2, h3, h4⟩
          · simp only [if_neg hmc]
            by_cases hact : src ∈ act
            · simp only [if_pos hact]
              refine ih _ ⟨?_, ?_, h3, h4⟩
              · intro k
                have hh := h1 k
                dsimp only
                by_cases hks : k = src
                · rw [hks] at hh ⊢
                  rw [List.count_cons_self] at hh
                  omega
                · rw [List.count_cons_of_ne hks] at hh
                  exact hh
              · intro k hk
                exact h2 k (List.mem_cons_of_mem src hk)
            · simp only [if_neg hact]
              refine ⟨?_, ?_, ?_, ?_⟩ <;> dsimp only
              · intro k
                have hh := h1 k
                rw [List.count_append]
                by_cases hks : k = src
                · rw [hks] at hh ⊢
                  rw [List.count_cons_self] at hh
                  have hone : ([src] : List String).count src = 1 := by simp
                  omega
                · rw [List.count_cons_of_ne hks] at hh
                  have hzero : ([src] : List String).count k = 0 := by simp [hks]
                  omega
              · intro k hk
                exact h2 k (List.mem_cons_of_mem src hk)
              · intro k hk
                rcases List.mem_append.1 hk with hk1 | hk1
                · exact h3 k hk1
                · have hks : k = src := by simpa using hk1
                  rw [hks]
                  exact h2 src (List.mem_cons_self src rest)
              · intro k
                have hh := h4 k
                rw [List.count_append]
                by_cases hks : k = src
                · rw [hks] at hh ⊢
                  rw [List.count_cons_self]
                  have hone : ([src] : List String).count src = 1 := by simp
                  omega
                · rw [List.count_cons_of_ne hks]
                  have hzero : ([src] : List String).count k = 0 := by simp [hks]
                  omega

/-- startPreloading preserves the invariant when its source list has no
internal duplicates. -/
theorem scheduleStep_inv (r : PreRun) (srcs : List String)
    (hnd : srcs.Nodup) (h : PreInv r) : PreInv (scheduleStep r srcs) := by
  obtain ⟨h1, h2, h3, h4⟩ := h
  unfold scheduleStep
  by_cases hemp : (srcs.filter (fun s => !imgsHas r.images s)).isEmpty
  · simp only [if_pos hemp]
    exact ⟨h1, h2, h3, h4⟩
  · simp only [if_neg hemp]
    refine runLoop_inv _ _ ⟨?_, ?_, ?_, ?_⟩ <;> dsimp only
    · intro k
      have hh := h1 k
      rw [List.count_append]
      by_cases hkn : k ∈ srcs.filter (fun s => !imgsHas r.images s)
      · have hknot : imgsHas r.images k = false := by
          have := (List.mem_filter.1 hkn).2
          simpa using this
        have hkq : k ∉ r.queue := fun hq => by rw [h2 k hq] at hknot; cases hknot
        have hkl : k ∉ r.log := fun hl => by rw [h3 k hl] at hknot; cases hknot
        have hq0 : r.queue.count k = 0 := List.count_eq_zero.2 hkq
        have hl0 : r.log.count k = 0 := List.count_eq_zero.2 hkl
        have hf1 : (srcs.filter (fun s => !imgsHas r.images s)).count k ≤ 1 :=
          List.nodup_iff_count_le_one.1 (hnd.filter _) k
        omega
      · have hf0 : (srcs.filter (fun s => !imgsHas r.images s)).count k = 0 :=
          List.count_eq_zero.2 hkn
        omega
    · intro k hk
      rcases List.mem_append.1 hk with hk1 | hk1
      · exact markPending_mono _ _ k (h2 k hk1)
      · exact markPending_of_mem _ _ k hk1
    · intro k hk
      exact markPending_mono _ _ k (h3 k hk)
    · exact h4

/-- Settling an active load preserves the invariant. -/
theorem settleStep_inv (r : PreRun) (k : String) (success : Bool)
    (h : PreInv r) : PreInv (settleStep r k success) := by
  obtain ⟨h1, h2, h3, h4⟩ := h
  unfold settleStep
  by_cases hact : k ∈ r.active
  · simp only [if_pos hact]
    refine runLoop_inv _ _ ⟨h1, ?_, ?_, ?_⟩ <;> dsimp only
    · intro x hx
      exact imgsHas_imgsSet_mono _ k x _ (h2 x hx)
    · intro x hx
      exact imgsHas_imgsSet_mono _ k x _ (h3 x hx)
    · intro x
      exact le_trans ((r.active.erase_sublist k).count_le x) (h4 x)
  · simp only [if_neg hact]
    exact ⟨h1, h2, h3, h4⟩

/-- Every trace of schedule calls with duplicate-free source lists and
settlements preserves the invariant. -/
theorem preTrace_inv (es : List PreEvent) :
    ∀ (r : PreRun), PreInv r → (∀ e ∈ es, schedOk e = true) →
      PreInv (preRunTrace r es) := by
  induction es with
  | nil => intro r h _; exact h
  | cons e rest ih =>
      intro r h hok
      have hstep : PreInv (preStep r e) := by
        cases e with
        | sched srcs =>
            have hnd : srcs.Nodup := by
              have := hok (.sched srcs) (List.mem_cons_self _ _)
              simpa [schedOk] using this
            exact scheduleStep_inv r srcs hnd h
        | settle k success => exact settleStep_inv r k success h
      exact ih (preStep r e) hstep (fun e' he' => hok e' (List.mem_cons_of_mem e he'))

/-- C9 amended: over every event trace in which each startPreloading call
passes a source list free of internal duplicates, every key is fetched at
most once overall - so a key scheduled twice across distinct calls before
it settles causes at most one underlying fetch, a settled key is never
re-fetched by scheduling alone, and no key is ever active twice
concurrently.  (The per-call proviso is forced by the counterexample: a
single call listing the same key twice issues two fetches.) -/
theorem c9_preloader_dedup_amended (maxC : Nat) (es : List PreEvent)
    (h : ∀ e ∈ es, schedOk e = true) (k : String) :
    (preRunTrace (preInit maxC) es).log.count k ≤ 1
    ∧ (preRunTrace (preInit maxC) es).active.count k ≤ 1 := by
  have hinit : PreInv (preInit maxC) := by
    refine ⟨?_, ?_, ?_, ?_⟩ <;> intro x <;> simp [preInit]
  obtain ⟨h1, _, _, h4⟩ := preTrace_inv es (preInit maxC) hinit h
  have ha := h1 k
  have hb := h4 k
  omega

/-- C9 witness: scheduling "a" in three separate calls - once fresh, once
while in flight, once after settlement - the invariant applies and in
fact exactly one load of "a" is issued. -/
theorem c9_preloader_dedup_amended_witness :
    ((preRunTrace (preInit 3) c9okTrace).log.count "a" ≤ 1
      ∧ (preRunTrace (preInit 3) c9okTrace).active.count "a" ≤ 1)
    ∧ (preRunTrace (preInit 3) c9okTrace).log.count "a" = 1 :=
  ⟨c9_preloader_dedup_amended 3 c9okTrace (by decide) "a", by decide⟩

/-- C10: within one isolated invocation of processQueue the dequeued
loads are strictly sequential: every state the invocation passes through
carries at most one key in the active set beyond those that were already
active when the invocation began, for every maxConcurrent and every
queue contents. -/
theorem c10_processQueue_sequential (ok : String → Bool) (fuel : Nat) :
    ∀ (r r' : PreRun), r' ∈ isoRun ok fuel r →
      ∃ extra : List String, extra.length ≤ 1 ∧ r'.active = extra ++ r.active := by
  induction fuel with
  | zero =>
      intro r r' hr
      have : r' = checkDone r := by simpa [isoRun] using hr
      refine ⟨[], by simp, ?_⟩
      rw [this]
      unfold checkDone
      split <;> rfl
  | succ fuel ih =>
      intro r r' hr
      obtain ⟨im, q, act, il, mc, lg⟩ := r
      cases q with
      | nil =>
          have : r' = checkDone ⟨im, [], act, il, mc, lg⟩ := by
            simpa [isoRun] using hr
          refine ⟨[], by simp, ?_⟩
          rw [this]
          unfold checkDone
          split <;> rfl
      | cons src rest =>
          simp only [isoRun] at hr
          by_cases hmc : mc ≤ act.length
          · rw [if_pos hmc] at hr
            have : r' = checkDone ⟨im, src :: rest, act, il, mc, lg⟩ := by
              simpa using hr
            refine ⟨[], by simp, ?_⟩
            rw [this]
            unfold checkDone
            split <;> rfl
          · rw [if_neg hmc] at hr
            by_cases hact : src ∈ act
            · rw [if_pos hact] at hr
              exact ih ⟨im, rest, act, il, mc, lg⟩ r' hr
            · rw [if_neg hact] at hr
              rcases List.mem_cons.1 hr with hr1 | hr1
              · exact ⟨[src], by simp, by rw [hr1]; rfl⟩
              · obtain ⟨extra, hlen, heq⟩ := ih _ r' hr1
                refine ⟨extra, hlen, ?_⟩
                rw [heq]
                dsimp only
                rw [List.erase_cons_head]

/-- C10 witness: draining the queue ["a", "b"] with one concurrency slot
from an empty active set, the suspended state after issuing "a" carries
exactly the one extra active key. -/
theorem c10_processQueue_sequential_witness :
    ∃ extra : List String, extra.length ≤ 1
      ∧ (⟨[], ["b"], ["a"], true, 1, ["a"]⟩ : PreRun).active
          = extra ++ c10start.active :=
  c10_processQueue_sequential (fun _ => true) 2 c10start
    ⟨[], ["b"], ["a"], true, 1, ["a"]⟩ (by decide)
